import Mathlib

/-!
Shallow embedding of `zerver/lib/url_preview/oembed.py`.

Python strings are modelled as `List Char` (named `Str` below).  Every
definition mirrors one function or expression of the source file; comments
name the source construct being translated.

Regular-expression semantics: the source compiles, for each endpoint, the
string `"(?:" + "|".join(scheme_to_regex(s) for s in schemes) + ")"` with
`re.IGNORECASE` and tests URLs with `re.Pattern.match` (anchored at the
start only).  Each alternative produced by `scheme_to_regex` is the
escaped variant string in which every `*` became the greedy `.*` and which
ends in `$` unless the variant itself ends in `*`.  We model acceptance of
one variant directly on the characters of the variant: a `*` matches any
sequence of non-newline characters (Python `.` does not match `\n`), every
other character matches itself case-insensitively (`re.IGNORECASE`;
ASCII case folding), and the `$` anchor matches at the end of the string
or just before a newline that is the last character (Python `$`
semantics for non-multiline patterns).  Acceptance by the compiled
pattern is acceptance by some variant of some scheme, since `re.match` on
an alternation succeeds exactly when some alternative matches at the
start.
-/

/-- Python `str` modelled as a list of characters. -/
abbrev Str := List Char

/-- Embed a Lean string literal into the model. -/
def str (s : String) : Str := s.data

/-- ASCII lowering of a whole string; models the effect of
`re.IGNORECASE` on the portions of the pattern and URL being compared. -/
def lowerStr (s : Str) : Str := s.map Char.toLower

/-- Locate the first occurrence of `pat` in a string: returns the part
before the occurrence and the part after it.  The Python `in` test and
single-count `str.replace` are both built on this. -/
def splitFirstSub (pat : Str) : Str → Option (Str × Str)
  | [] => if pat.isEmpty then some ([], []) else none
  | c :: cs =>
    if pat.isPrefixOf (c :: cs) then some ([], (c :: cs).drop pat.length)
    else
      match splitFirstSub pat cs with
      | some (pre, post) => some (c :: pre, post)
      | none => none

/-- Python `pat in s`. -/
def containsSub (pat s : Str) : Bool := (splitFirstSub pat s).isSome

/-- Python `s.replace(pat, repl, 1)`: replace the first occurrence only. -/
def replaceFirst (pat repl s : Str) : Str :=
  match splitFirstSub pat s with
  | some (pre, post) => pre ++ repl ++ post
  | none => s

/-- Python `s.replace(pat, repl)` for the non-empty pattern `p :: ps`:
left-to-right, non-overlapping, the replacement text is not rescanned. -/
def replaceAllSub (p : Char) (ps : Str) (repl : Str) : Str → Str
  | [] => []
  | c :: cs =>
    if (p :: ps).isPrefixOf (c :: cs) then repl ++ replaceAllSub p ps repl (cs.drop ps.length)
    else c :: replaceAllSub p ps repl cs
termination_by s => s.length
decreasing_by
  · simp only [List.length_cons, List.length_drop]
    omega
  · simp

/-- Python `list(dict.fromkeys(l))`: deduplicate keeping the first
occurrence of each element, preserving order. -/
def dedupFirstAux (seen : List Str) : List Str → List Str
  | [] => []
  | v :: vs => if v ∈ seen then dedupFirstAux seen vs else v :: dedupFirstAux (v :: seen) vs

/-- Python `list(dict.fromkeys(l))`. -/
def dedupFirst (l : List Str) : List Str := dedupFirstAux [] l

/-- The scheme-flipping step of `scheme_to_regex`: an `https://` variant
also gets an `http://` twin and vice versa; other variants get nothing. -/
def schemeFlip (variant : Str) : Option Str :=
  if (str "https://").isPrefixOf variant then some (str "http://" ++ variant.drop 8)
  else if (str "http://").isPrefixOf variant then some (str "https://" ++ variant.drop 7)
  else none

/-- The literal `"://*."` tested for by `scheme_to_regex`. -/
def wildcardSub : Str := str "://*."

/-- The variant list built by `scheme_to_regex`: the scheme itself, the
de-wildcarded form when the scheme contains `"://*."` (first occurrence
replaced by `"://"`), then the scheme flips of those, deduplicated
keeping first occurrences (`list(dict.fromkeys(variants))`). -/
def variantsOf (scheme : Str) : List Str :=
  let base :=
    [scheme] ++
      (if containsSub wildcardSub scheme then [replaceFirst wildcardSub (str "://") scheme] else [])
  dedupFirst (base ++ base.filterMap schemeFlip)

/-- The characters Python `re.escape` prefixes with a backslash
(the CPython table `_special_chars_map`). -/
def specialChars : Str :=
  ['(', ')', '[', ']', '\x7b', '\x7d', '?', '*', '+', '-', '|', '^', '$', '\\', '.', '&', '~',
    '#', ' ', '\t', '\n', '\r', '\x0b', '\x0c']

/-- Whether `re.escape` escapes the character. -/
def isSpecialChar (c : Char) : Bool := specialChars.contains c

/-- Python `re.escape` acting on one character. -/
def escChar (c : Char) : Str := if isSpecialChar c then ['\\', c] else [c]

/-- Python `re.escape`: a per-character translation table
(`pattern.translate(_special_chars_map)`). -/
def reEscape (s : Str) : Str := s.flatMap escChar

/-- Python `s.replace(p, r)` specialised to a two-character pattern
`[p1, p2]`: left-to-right, non-overlapping, replacement not rescanned. -/
def replace2 (p1 p2 : Char) (repl : Str) : Str → Str
  | [] => []
  | [c] => [c]
  | c1 :: c2 :: cs =>
    if c1 = p1 ∧ c2 = p2 then repl ++ replace2 p1 p2 repl cs
    else c1 :: replace2 p1 p2 repl (c2 :: cs)
termination_by s => s.length
decreasing_by
  · simp only [List.length_cons]
    omega
  · simp

/-- The expression `re.escape(variant).replace(r"\*", ".*").replace(r"\&", "&")`
from `scheme_to_regex`. -/
def escapeVariant (variant : Str) : Str :=
  replace2 '\\' '&' ['&'] (replace2 '\\' '*' ['.', '*'] (reEscape variant))

/-- Python `variant.endswith("*")`. -/
def endsWithStar (variant : Str) : Bool := variant.getLast? == some '*'

/-- The regex string returned by `scheme_to_regex`:
`"(?:" + "|".join(patterns) + ")"`, each pattern being the escaped
variant followed by `"$"` unless the variant ends in `*`. -/
def scheme_to_regex (scheme : Str) : Str :=
  str "(?:" ++
    List.intercalate (str "|")
      ((variantsOf scheme).map fun v => escapeVariant v ++ (if endsWithStar v then [] else ['$'])) ++
    str ")"

/-- One token of a compiled variant: a literal character (escaped or not,
it matches exactly itself up to case) or the `.*` produced from `*`. -/
inductive RTok where
  | lit (c : Char)
  | star
deriving DecidableEq

/-- The token reading of a variant string: `*` is the wildcard, every
other character a literal. -/
def toksOf (variant : Str) : List RTok :=
  variant.map fun c => if c = '*' then RTok.star else RTok.lit c

/-- Case-insensitive character comparison (`re.IGNORECASE`, ASCII). -/
def lcEq (a b : Char) : Bool := a.toLower == b.toLower

/-- The backtracking scan performed by one greedy `.*`: try the rest of
the pattern (`next`) at this suffix, else consume one non-newline
character (Python `.` does not match `\n`) and scan on.  Acceptance is
order-independent, so greedy and lazy agree. -/
def starScan (next : Str → Bool) : Str → Bool
  | [] => next []
  | c :: cs => next (c :: cs) || (decide (c ≠ '\n') && starScan next cs)

/-- Predicate `mFull ts u`: the token sequence matches the whole string `u`.
`star` matches any sequence of non-newline characters, a literal matches
itself case-insensitively. -/
def mFull : List RTok → Str → Bool
  | [] => fun u => u.isEmpty
  | RTok.lit a :: ts => fun u =>
    match u with
    | [] => false
    | c :: cs => lcEq a c && mFull ts cs
  | RTok.star :: ts => starScan (mFull ts)

/-- Predicate `mPre ts u`: the token sequence matches some prefix of `u`
(`re.match` with no `$` anchor). -/
def mPre : List RTok → Str → Bool
  | [] => fun _ => true
  | RTok.lit a :: ts => fun u =>
    match u with
    | [] => false
    | c :: cs => lcEq a c && mPre ts cs
  | RTok.star :: ts => starScan (mPre ts)

/-- Python `re.match` of a `$`-terminated pattern: the match must end at the end
of the string, or just before a newline that is the last character
(Python `$` semantics). -/
def mDollar (ts : List RTok) (u : Str) : Bool :=
  mFull ts u || (u.getLast? == some '\n' && mFull ts u.dropLast)

/-- Acceptance of a URL by one variant of the compiled pattern: the
alternative of the variant carries a final `$` exactly when the variant does
not end in `*`. -/
def variantAccepts (variant url : Str) : Bool :=
  if endsWithStar variant then mPre (toksOf variant) url else mDollar (toksOf variant) url

/-- Acceptance of a URL by the compiled form of one pattern string:
`re.match` on the alternation over all variants. -/
def schemeAccepts (scheme url : Str) : Bool :=
  (variantsOf scheme).any fun v => variantAccepts v url

/-- Acceptance by the single compiled regex of one endpoint, which ORs
the `scheme_to_regex` of every scheme listed by the endpoint. -/
def endpointAccepts (schemes : List Str) (url : Str) : Bool :=
  schemes.any fun s => schemeAccepts s url

/-- One entry of the `endpoints` list of a provider: `endpoint.get("schemes", [])`
is modelled by the field itself (a missing key reads as `[]`), and
`endpoint.get("url")` by an `Option` (`none` = key missing). -/
structure OEmbedEndpoint where
  schemes : List Str
  url : Option Str
deriving DecidableEq

/-- One entry of the provider catalogue (`provider.get("endpoints", [])`
modelled by the field itself). -/
structure OEmbedProvider where
  endpoints : List OEmbedEndpoint
deriving DecidableEq

/-- One entry of `endpoint_map`: the compiled regex is represented by the
scheme list it was built from, the value is the formatted endpoint URL.
The Python dict preserves insertion order; distinct `re.compile` calls
are modelled as distinct keys, so the map is an insertion-ordered list. -/
structure CompiledEntry where
  schemes : List Str
  endpointUrl : Str
deriving DecidableEq

/-- The expression `endpoint_url.replace("format placeholder", "json")` of the source. -/
def formatted (endpointUrl : Str) : Str :=
  replaceAllSub '\x7b' (str "format\x7d") (str "json") endpointUrl

/-- The body of the inner loop of `compile_oembed_providers`: skip the
endpoint when `not schemes or not endpoint_url` (missing key, empty list,
or empty string — all falsy), otherwise register the compiled entry. -/
def compileEndpoint (e : OEmbedEndpoint) : Option CompiledEntry :=
  match e.url with
  | none => none
  | some endpointUrl =>
    if e.schemes.isEmpty || endpointUrl.isEmpty then none
    else some ⟨e.schemes, formatted endpointUrl⟩

/-- Function `compile_oembed_providers`: for each provider, for each endpoint, in
order, register the surviving entries. -/
def compile_oembed_providers (providers : List OEmbedProvider) : List CompiledEntry :=
  providers.flatMap fun p => p.endpoints.filterMap compileEndpoint

/-- Function `get_oembed_endpoint`: iterate `endpoint_map.items()` in insertion
order, return the endpoint URL of the first compiled regex that matches,
else `None`. -/
def get_oembed_endpoint (endpointMap : List CompiledEntry) (url : Str) : Option Str :=
  match endpointMap with
  | [] => none
  | e :: rest =>
    if endpointAccepts e.schemes url then some e.endpointUrl else get_oembed_endpoint rest url

/-- The fields of the decoded oEmbed JSON object that `get_oembed_data`
reads.  `none` models a missing key; `some []` a key present with an
empty-string value (falsy but present, which `dict.get` distinguishes). -/
structure OEmbedResponse where
  type : Option Str
  url : Option Str
  image : Option Str
  thumbnail_url : Option Str
  html : Option Str
  title : Option Str
  description : Option Str
deriving DecidableEq

/-- Record `UrlOEmbedData` as constructed by `get_oembed_data` (the photo branch
leaves `html` at its `None` default). -/
structure UrlOEmbedData where
  image : Str
  type : Str
  html : Option Str
  title : Option Str
  description : Option Str
deriving DecidableEq

/-- Python truthiness of an optional string: `None` and `""` are falsy. -/
def truthy : Option Str → Bool
  | none => false
  | some s => !s.isEmpty

/-- Function `strip_cdata`: drop the wrapper when the markup starts with
`"<![CDATA["` and ends with `"]]>"` (`html[9:-3]`), else return it
unchanged. -/
def strip_cdata (html : Str) : Str :=
  if (str "<![CDATA[").isPrefixOf html && (str "]]>").isSuffixOf html then
    (html.drop 9).rdrop 3
  else html

/-- The response-interpretation tail of `get_oembed_data` (source lines
109-130): read `type` (default `""`), `url` falling back to `image` only
when the `url` key is absent, `thumbnail_url`, `html` (default `""`);
return the photo or video record or `None`. -/
def parse_oembed (data : OEmbedResponse) : Option UrlOEmbedData :=
  let oembed_resource_type := data.type.getD []
  let image := data.url.or data.image
  let thumbnail := data.thumbnail_url
  let html := data.html.getD []
  if oembed_resource_type == str "photo" && truthy image then
    some ⟨image.getD [], str "photo", none, data.title, data.description⟩
  else if oembed_resource_type == str "video" && !html.isEmpty && truthy thumbnail then
    some ⟨thumbnail.getD [], str "video", some (strip_cdata html), data.title, data.description⟩
  else none

/-- Outcome of `session.get(request_url)` followed by `.json()`:
`networkError` models a raised `requests.RequestException`; `response ok
body` models an HTTP response with `response.ok = ok` whose body decodes
to `body` (`none` = `json.JSONDecodeError`). -/
inductive FetchResult where
  | networkError
  | response (ok : Bool) (body : Option OEmbedResponse)
deriving DecidableEq

/-- The single GET issued by `get_oembed_data`: target endpoint plus the
query parameters serialised by `urlencode(params)` in dict order. -/
structure OEmbedRequest where
  endpoint : Str
  params : List (Str × Str)
deriving DecidableEq

/-- Python `str(i)` for an `int` query-parameter value. -/
def intToStr (i : Int) : Str := (toString i).data

/-- The `params` dict of `get_oembed_data`, in construction order. -/
def oembedParams (url : Str) (maxwidth maxheight : Int) : List (Str × Str) :=
  [(str "url", url), (str "format", str "json"),
    (str "maxwidth", intToStr maxwidth), (str "maxheight", intToStr maxheight)]

/-- The `try`-block and response handling of `get_oembed_data` (source
lines 100-107): a raised `RequestException` or `JSONDecodeError` and a
non-2xx status (`not response.ok`) all yield `None`; otherwise the
decoded body is interpreted. -/
def oembedHandle : FetchResult → Option UrlOEmbedData
  | FetchResult.networkError => none
  | FetchResult.response ok body =>
    if !ok then none
    else
      match body with
      | none => none
      | some data => parse_oembed data

/-- Function `get_oembed_data`: resolve the endpoint (returning `None` when no
compiled pattern matches), issue one GET for the endpoint with the four
query parameters, and interpret the outcome.  The source defaults
`maxwidth=640, maxheight=480`; the session collaborator is passed
explicitly. -/
def get_oembed_data (endpointMap : List CompiledEntry) (url : Str) (maxwidth maxheight : Int)
    (session : OEmbedRequest → FetchResult) : Option UrlOEmbedData :=
  match get_oembed_endpoint endpointMap url with
  | none => none
  | some endpoint => oembedHandle (session ⟨endpoint, oembedParams url maxwidth maxheight⟩)

/-- A request outcome that models one of the failure modes swallowed by
`get_oembed_data`: a raised `RequestException`, a non-2xx response, or a
body that is not valid JSON. -/
def isFetchFailure : FetchResult → Prop
  | FetchResult.networkError => True
  | FetchResult.response ok body => ok = false ∨ body = none

instance (r : FetchResult) : Decidable (isFetchFailure r) := by
  cases r <;> simp [isFetchFailure] <;> infer_instance

/-- The intermediate per-character form after
`re.escape(v).replace(r"\*", ".*")`: `*` has become `.*`, everything else
is still only escaped.  (Specification device for relating the two
sequential `str.replace` calls to a per-character description.) -/
def step1 (c : Char) : Str := if c = '*' then str ".*" else escChar c

/-- The per-character description of the full escaping chain of
`scheme_to_regex`: `*` becomes the greedy `.*`, a literal `&` stays an
unescaped `&`, every other character escaped by `re.escape` keeps its
backslash, and the rest stand for themselves. -/
def translateChar (c : Char) : Str :=
  if c = '*' then str ".*"
  else if c = '&' then ['&']
  else if isSpecialChar c then ['\\', c]
  else [c]

/-!
### Helper lemmas
-/

theorem mem_dedupFirstAux {x : Str} :
    ∀ (l : List Str) (seen : List Str), x ∈ dedupFirstAux seen l ↔ x ∈ l ∧ x ∉ seen := by
  intro l
  induction l with
  | nil => intro seen; simp [dedupFirstAux]
  | cons v vs ih =>
    intro seen
    by_cases hv : v ∈ seen
    · rw [dedupFirstAux, if_pos hv, ih]
      constructor
      · rintro ⟨h1, h2⟩
        exact ⟨List.mem_cons_of_mem _ h1, h2⟩
      · rintro ⟨h1, h2⟩
        rcases List.mem_cons.mp h1 with h1 | h1
        · exact absurd (h1 ▸ hv) h2
        · exact ⟨h1, h2⟩
    · rw [dedupFirstAux, if_neg hv]
      constructor
      · intro h
        rcases List.mem_cons.mp h with h | h
        · exact ⟨h ▸ List.mem_cons_self _ _, h ▸ hv⟩
        · rcases (ih (v :: seen)).mp h with ⟨h1, h2⟩
          exact ⟨List.mem_cons_of_mem _ h1, fun hx => h2 (List.mem_cons_of_mem _ hx)⟩
      · rintro ⟨h1, h2⟩
        rcases List.mem_cons.mp h1 with h1 | h1
        · exact h1 ▸ List.mem_cons_self _ _
        · by_cases hxv : x = v
          · exact hxv ▸ List.mem_cons_self _ _
          · exact List.mem_cons_of_mem _ ((ih (v :: seen)).mpr
              ⟨h1, fun hx => (List.mem_cons.mp hx).elim hxv h2⟩)

theorem mem_dedupFirst {x : Str} {l : List Str} : x ∈ dedupFirst l ↔ x ∈ l := by
  simp [dedupFirst, mem_dedupFirstAux]

theorem splitFirstSub_eq {pat : Str} :
    ∀ {s pre post : Str}, splitFirstSub pat s = some (pre, post) → s = pre ++ pat ++ post := by
  intro s
  induction s with
  | nil =>
    intro pre post h
    rw [splitFirstSub] at h
    by_cases hp : pat.isEmpty
    · rw [if_pos hp] at h
      obtain ⟨rfl, rfl⟩ := Prod.mk.injEq .. ▸ Option.some.injEq .. ▸ h
      simp [List.isEmpty_iff.mp hp]
    · rw [if_neg hp] at h
      exact absurd h (by simp)
  | cons c cs ih =>
    intro pre post h
    rw [splitFirstSub] at h
    by_cases hp : pat.isPrefixOf (c :: cs)
    · rw [if_pos hp] at h
      obtain ⟨t, ht⟩ := List.isPrefixOf_iff_prefix.mp hp
      obtain ⟨rfl, rfl⟩ := Prod.mk.injEq .. ▸ Option.some.injEq .. ▸ h
      conv_lhs => rw [← ht]
      rw [← ht, List.nil_append, List.drop_left]
    · rw [if_neg hp] at h
      cases hsp : splitFirstSub pat cs with
      | none => rw [hsp] at h; exact absurd h (by simp)
      | some pp =>
        obtain ⟨p1, p2⟩ := pp
        rw [hsp] at h
        obtain ⟨rfl, rfl⟩ := Prod.mk.injEq .. ▸ Option.some.injEq .. ▸ h
        simp [ih hsp]

theorem containsSub_split {pat s : Str} (h : containsSub pat s = true) :
    ∃ pre post, splitFirstSub pat s = some (pre, post) ∧ s = pre ++ pat ++ post := by
  rcases hs : splitFirstSub pat s with _ | ⟨pre, post⟩
  · rw [containsSub, hs] at h; exact absurd h (by simp)
  · exact ⟨pre, post, rfl, splitFirstSub_eq hs⟩

theorem lcEq_true_iff {a b : Char} : lcEq a b = true ↔ a.toLower = b.toLower := by
  rw [lcEq]
  exact beq_iff_eq

theorem mFull_nil (u : Str) : mFull [] u = u.isEmpty := rfl

theorem mFull_lit_nil (a : Char) (ts : List RTok) : mFull (RTok.lit a :: ts) [] = false := rfl

theorem mFull_lit_cons (a : Char) (ts : List RTok) (c : Char) (cs : Str) :
    mFull (RTok.lit a :: ts) (c :: cs) = (lcEq a c && mFull ts cs) := rfl

theorem mFull_star (ts : List RTok) (u : Str) : mFull (RTok.star :: ts) u = starScan (mFull ts) u :=
  rfl

theorem mFull_star_nil (ts : List RTok) : mFull (RTok.star :: ts) [] = mFull ts [] := rfl

theorem mFull_star_cons (ts : List RTok) (c : Char) (cs : Str) :
    mFull (RTok.star :: ts) (c :: cs) =
      (mFull ts (c :: cs) || (decide (c ≠ '\n') && mFull (RTok.star :: ts) cs)) := rfl

theorem mPre_nil (u : Str) : mPre [] u = true := rfl

theorem mPre_lit_nil (a : Char) (ts : List RTok) : mPre (RTok.lit a :: ts) [] = false := rfl

theorem mPre_lit_cons (a : Char) (ts : List RTok) (c : Char) (cs : Str) :
    mPre (RTok.lit a :: ts) (c :: cs) = (lcEq a c && mPre ts cs) := rfl

theorem mPre_star (ts : List RTok) (u : Str) : mPre (RTok.star :: ts) u = starScan (mPre ts) u :=
  rfl

theorem mPre_star_cons (ts : List RTok) (c : Char) (cs : Str) :
    mPre (RTok.star :: ts) (c :: cs) =
      (mPre ts (c :: cs) || (decide (c ≠ '\n') && mPre (RTok.star :: ts) cs)) := rfl

theorem starScan_extend (next : Str → Bool)
    (hnext : ∀ v e, next v = true → next (v ++ e) = true) :
    ∀ u e, starScan next u = true → starScan next (u ++ e) = true := by
  intro u
  induction u with
  | nil =>
    intro e h
    rw [starScan] at h
    rw [List.nil_append]
    cases e with
    | nil => rw [starScan]; exact h
    | cons c cs =>
      rw [starScan, Bool.or_eq_true]
      exact Or.inl (hnext [] (c :: cs) h)
  | cons c cs ih =>
    intro e h
    rw [starScan, Bool.or_eq_true] at h
    rw [List.cons_append, starScan, Bool.or_eq_true]
    rcases h with h | h
    · exact Or.inl (hnext (c :: cs) e h)
    · rw [Bool.and_eq_true] at h
      refine Or.inr ?_
      rw [Bool.and_eq_true]
      exact ⟨h.1, ih e h.2⟩

theorem mPre_extend (ts : List RTok) : ∀ (u e : Str), mPre ts u = true → mPre ts (u ++ e) = true := by
  induction ts with
  | nil => intro u e _; rw [mPre_nil]
  | cons t ts ih =>
    cases t with
    | lit a =>
      intro u e h
      cases u with
      | nil => rw [mPre_lit_nil] at h; exact absurd h (by simp)
      | cons c cs =>
        rw [mPre_lit_cons, Bool.and_eq_true] at h
        rw [List.cons_append, mPre_lit_cons, Bool.and_eq_true]
        exact ⟨h.1, ih cs e h.2⟩
    | star =>
      intro u e h
      rw [mPre_star] at h
      rw [mPre_star]
      exact starScan_extend (mPre ts) ih u e h

theorem mFull_lits : ∀ (v u : Str), mFull (v.map RTok.lit) u = true ↔ lowerStr u = lowerStr v := by
  intro v
  induction v with
  | nil =>
    intro u
    cases u with
    | nil => simp [mFull_nil, lowerStr]
    | cons c cs => simp [mFull_nil, lowerStr]
  | cons a v ih =>
    intro u
    cases u with
    | nil => simp [mFull_lit_nil, lowerStr]
    | cons c cs =>
      rw [List.map_cons, mFull_lit_cons, Bool.and_eq_true, ih, lcEq_true_iff]
      simp only [lowerStr, List.map_cons, List.cons.injEq]
      exact and_congr_left fun _ => eq_comm

theorem mPre_lits_full (v u : Str) (h : lowerStr u = lowerStr v) :
    mPre (v.map RTok.lit) u = true := by
  induction v generalizing u with
  | nil => simp [mPre_nil]
  | cons a v ih =>
    cases u with
    | nil => simp [lowerStr] at h
    | cons c cs =>
      simp only [lowerStr, List.map_cons, List.cons.injEq] at h
      rw [List.map_cons, mPre_lit_cons, Bool.and_eq_true]
      exact ⟨lcEq_true_iff.mpr h.1.symm, ih cs h.2⟩

theorem mFull_append_lits (a : Str) :
    ∀ (b : Str) (ts : List RTok) (u : Str), lowerStr b = lowerStr a →
      mFull (a.map RTok.lit ++ ts) (b ++ u) = mFull ts u := by
  induction a with
  | nil =>
    intro b ts u hb
    simp only [lowerStr, List.map_nil, List.map_eq_nil_iff] at hb
    subst hb
    rfl
  | cons x a ih =>
    intro b ts u hb
    cases b with
    | nil => simp [lowerStr] at hb
    | cons y b =>
      simp only [lowerStr, List.map_cons, List.cons.injEq] at hb
      rw [List.map_cons, List.cons_append, List.cons_append, mFull_lit_cons,
        show lcEq x y = true from lcEq_true_iff.mpr hb.1.symm, Bool.true_and]
      exact ih b ts u hb.2

theorem mPre_append_lits (a : Str) :
    ∀ (b : Str) (ts : List RTok) (u : Str), lowerStr b = lowerStr a →
      mPre (a.map RTok.lit ++ ts) (b ++ u) = mPre ts u := by
  induction a with
  | nil =>
    intro b ts u hb
    simp only [lowerStr, List.map_nil, List.map_eq_nil_iff] at hb
    subst hb
    rfl
  | cons x a ih =>
    intro b ts u hb
    cases b with
    | nil => simp [lowerStr] at hb
    | cons y b =>
      simp only [lowerStr, List.map_cons, List.cons.injEq] at hb
      rw [List.map_cons, List.cons_append, List.cons_append, mPre_lit_cons,
        show lcEq x y = true from lcEq_true_iff.mpr hb.1.symm, Bool.true_and]
      exact ih b ts u hb.2

theorem mFull_star_absorb (pre : Str) (h : '\n' ∉ pre) (ts : List RTok) (u : Str)
    (hm : mFull ts u = true) : mFull (RTok.star :: ts) (pre ++ u) = true := by
  induction pre with
  | nil =>
    cases u with
    | nil => rw [List.nil_append, mFull_star_nil]; exact hm
    | cons c cs => rw [List.nil_append, mFull_star_cons, Bool.or_eq_true]; exact Or.inl hm
  | cons p pre ih =>
    have hp : p ≠ '\n' := fun hc => h (hc ▸ List.mem_cons_self _ _)
    have hrest : '\n' ∉ pre := fun hc => h (List.mem_cons_of_mem _ hc)
    rw [List.cons_append, mFull_star_cons, Bool.or_eq_true]
    refine Or.inr ?_
    rw [Bool.and_eq_true]
    exact ⟨decide_eq_true hp, ih hrest⟩

theorem mPre_star_absorb (pre : Str) (h : '\n' ∉ pre) (ts : List RTok) (u : Str)
    (hm : mPre ts u = true) : mPre (RTok.star :: ts) (pre ++ u) = true := by
  induction pre with
  | nil =>
    cases u with
    | nil => rw [List.nil_append, mPre_star]; rw [starScan]; exact hm
    | cons c cs => rw [List.nil_append, mPre_star_cons, Bool.or_eq_true]; exact Or.inl hm
  | cons p pre ih =>
    have hp : p ≠ '\n' := fun hc => h (hc ▸ List.mem_cons_self _ _)
    have hrest : '\n' ∉ pre := fun hc => h (List.mem_cons_of_mem _ hc)
    rw [List.cons_append, mPre_star_cons, Bool.or_eq_true]
    refine Or.inr ?_
    rw [Bool.and_eq_true]
    exact ⟨decide_eq_true hp, ih hrest⟩

theorem toksOf_append (a b : Str) : toksOf (a ++ b) = toksOf a ++ toksOf b :=
  List.map_append _ a b

theorem toksOf_eq_lits {a : Str} (h : '*' ∉ a) : toksOf a = a.map RTok.lit := by
  unfold toksOf
  refine List.map_congr_left fun c hc => ?_
  rw [if_neg (fun (hcs : c = '*') => h (hcs ▸ hc))]

theorem endsWithStar_append {x : Str} (R : Str) (hne : x ≠ []) (hlast : x.getLast? ≠ some '*') :
    endsWithStar (x ++ R) = endsWithStar R := by
  cases R with
  | nil =>
    rw [List.append_nil, endsWithStar, endsWithStar]
    rw [beq_eq_false_iff_ne.mpr hlast]
    rfl
  | cons c cs =>
    rw [endsWithStar, endsWithStar, List.getLast?_append_of_ne_nil _ (by simp)]

theorem schemeAccepts_of_mem {v s u : Str} (hm : v ∈ variantsOf s)
    (ha : variantAccepts v u = true) : schemeAccepts s u = true :=
  List.any_eq_true.mpr ⟨v, hm, ha⟩

theorem variantAccepts_prepend {sp su : Str} (hstar : '*' ∉ sp) (hne : sp ≠ [])
    (hlast : sp.getLast? ≠ some '*') (hlow : lowerStr su = lowerStr sp) {R tail : Str}
    (h : variantAccepts R tail = true) : variantAccepts (sp ++ R) (su ++ tail) = true := by
  rw [variantAccepts] at h ⊢
  rw [endsWithStar_append R hne hlast, toksOf_append, toksOf_eq_lits hstar]
  cases hR : endsWithStar R with
  | true =>
    rw [hR, if_pos rfl] at h
    rw [if_pos rfl, mPre_append_lits sp su _ tail hlow]
    exact h
  | false =>
    rw [hR] at h
    replace h : mDollar (toksOf R) tail = true := h
    show mDollar (List.map RTok.lit sp ++ toksOf R) (su ++ tail) = true
    rw [mDollar] at h ⊢
    rw [Bool.or_eq_true] at h ⊢
    rcases h with h | h
    · exact Or.inl (by rw [mFull_append_lits sp su _ tail hlow]; exact h)
    · rw [Bool.and_eq_true] at h
      obtain ⟨hl, hd⟩ := h
      have htail : tail ≠ [] := by
        intro hc
        rw [hc] at hl
        simp at hl
      refine Or.inr ?_
      rw [Bool.and_eq_true]
      constructor
      · rw [List.getLast?_append_of_ne_nil _ htail]
        exact hl
      · rw [List.dropLast_append_of_ne_nil _ htail,
          mFull_append_lits sp su _ tail.dropLast hlow]
        exact hd

theorem variantAccepts_prepend_wild {sp su sub : Str} (hstar : '*' ∉ sp) (hne : sp ≠ [])
    (hlast : sp.getLast? ≠ some '*') (hlow : lowerStr su = lowerStr sp) (hsub : '\n' ∉ sub)
    {R tail : Str} (h : variantAccepts R tail = true) :
    variantAccepts (sp ++ '*' :: '.' :: R) (su ++ (sub ++ '.' :: tail)) = true := by
  rw [variantAccepts] at h ⊢
  have hassoc : sp ++ '*' :: '.' :: R = (sp ++ ['*', '.']) ++ R := by
    rw [List.append_assoc]
    rfl
  have hends : endsWithStar (sp ++ '*' :: '.' :: R) = endsWithStar R := by
    rw [hassoc]
    exact endsWithStar_append R (by simp) (by rw [List.getLast?_append_of_ne_nil _ (by simp)]; simp)
  have htoks : toksOf (sp ++ '*' :: '.' :: R) =
      sp.map RTok.lit ++ RTok.star :: RTok.lit '.' :: toksOf R := by
    rw [show (sp ++ '*' :: '.' :: R : Str) = sp ++ (['*', '.'] ++ R) from rfl, toksOf_append,
      toksOf_append, toksOf_eq_lits hstar]
    simp [toksOf]
  rw [hends, htoks]
  have hdotfull : ∀ t : Str, mFull (toksOf R) t = true →
      mFull (RTok.lit '.' :: toksOf R) ('.' :: t) = true := by
    intro t ht
    rw [mFull, Bool.and_eq_true]
    exact ⟨lcEq_true_iff.mpr rfl, ht⟩
  cases hR : endsWithStar R with
  | true =>
    rw [hR, if_pos rfl] at h
    rw [if_pos rfl, mPre_append_lits sp su _ (sub ++ '.' :: tail) hlow]
    refine mPre_star_absorb sub hsub _ ('.' :: tail) ?_
    rw [mPre, Bool.and_eq_true]
    exact ⟨lcEq_true_iff.mpr rfl, h⟩
  | false =>
    rw [hR] at h
    replace h : mDollar (toksOf R) tail = true := h
    show mDollar (List.map RTok.lit sp ++ RTok.star :: RTok.lit '.' :: toksOf R)
      (su ++ (sub ++ '.' :: tail)) = true
    rw [mDollar] at h ⊢
    rw [Bool.or_eq_true] at h ⊢
    rcases h with h | h
    · refine Or.inl ?_
      rw [mFull_append_lits sp su _ (sub ++ '.' :: tail) hlow]
      exact mFull_star_absorb sub hsub _ ('.' :: tail) (hdotfull tail h)
    · rw [Bool.and_eq_true] at h
      obtain ⟨hl, hd⟩ := h
      have htail : tail ≠ [] := by
        intro hc
        rw [hc] at hl
        simp at hl
      refine Or.inr ?_
      rw [Bool.and_eq_true]
      have hne2 : sub ++ '.' :: tail ≠ [] := by simp
      have hdotcons : ('.' :: tail : Str) = ['.'] ++ tail := rfl
      constructor
      · rw [List.getLast?_append_of_ne_nil _ hne2,
          List.getLast?_append_of_ne_nil _ (by simp : ('.' :: tail : Str) ≠ []), hdotcons,
          List.getLast?_append_of_ne_nil _ htail]
        exact hl
      · rw [List.dropLast_append_of_ne_nil _ hne2,
          List.dropLast_append_of_ne_nil _ (by simp : ('.' :: tail : Str) ≠ []), hdotcons,
          List.dropLast_append_of_ne_nil _ htail,
          mFull_append_lits sp su _ (sub ++ (['.'] ++ tail.dropLast)) hlow]
        exact mFull_star_absorb sub hsub _ ('.' :: tail.dropLast) (hdotfull tail.dropLast hd)

theorem lowerStr_append (a b : Str) : lowerStr (a ++ b) = lowerStr a ++ lowerStr b :=
  List.map_append _ a b

theorem variantsOf_http_wild (R : Str) :
    variantsOf (str "http" ++ str "://*." ++ R) =
      dedupFirst [str "http" ++ str "://*." ++ R, str "http" ++ str "://" ++ R,
        str "https" ++ str "://*." ++ R, str "https" ++ str "://" ++ R] := by
  simp [variantsOf, containsSub, splitFirstSub, replaceFirst, schemeFlip, str, wildcardSub,
    List.isPrefixOf, List.filterMap_cons]

theorem variantsOf_https_wild (R : Str) :
    variantsOf (str "https" ++ str "://*." ++ R) =
      dedupFirst [str "https" ++ str "://*." ++ R, str "https" ++ str "://" ++ R,
        str "http" ++ str "://*." ++ R, str "http" ++ str "://" ++ R] := by
  simp [variantsOf, containsSub, splitFirstSub, replaceFirst, schemeFlip, str, wildcardSub,
    List.isPrefixOf, List.filterMap_cons]

theorem mem_variantsOf_wild (s1 R : Str) (hs1 : s1 = str "http" ∨ s1 = str "https") :
    (str "http" ++ str "://*." ++ R) ∈ variantsOf (s1 ++ str "://*." ++ R) ∧
    (str "http" ++ str "://" ++ R) ∈ variantsOf (s1 ++ str "://*." ++ R) ∧
    (str "https" ++ str "://*." ++ R) ∈ variantsOf (s1 ++ str "://*." ++ R) ∧
    (str "https" ++ str "://" ++ R) ∈ variantsOf (s1 ++ str "://*." ++ R) := by
  rcases hs1 with rfl | rfl
  · refine ⟨?_, ?_, ?_, ?_⟩ <;> rw [variantsOf_http_wild R, mem_dedupFirst] <;> simp
  · refine ⟨?_, ?_, ?_, ?_⟩ <;> rw [variantsOf_https_wild R, mem_dedupFirst] <;> simp

/-- C1: for every provider pattern with a wildcard subdomain
(`scheme://*.` followed by the rest `R`, with scheme `http` or `https`),
the compiled matcher accepts both the bare-host URL `s2://tail` and any
subdomain URL `s2://sub.tail`, for either URL scheme `s2` (`http` or
`https` up to letter case), whenever the rest of the URL matches the rest
of the pattern; matching is case-insensitive throughout (`lowerStr` and
the case-insensitive tail hypothesis). -/
theorem c1_wildcard_subdomain_accepts (s1 s2 R sub tail : Str)
    (hs1 : s1 = str "http" ∨ s1 = str "https")
    (hs2 : lowerStr s2 = str "http" ∨ lowerStr s2 = str "https")
    (hsub : '\n' ∉ sub)
    (htail : variantAccepts R tail = true) :
    schemeAccepts (s1 ++ str "://*." ++ R) (s2 ++ str "://" ++ tail) = true ∧
    schemeAccepts (s1 ++ str "://*." ++ R) (s2 ++ str "://" ++ (sub ++ '.' :: tail)) = true := by
  obtain ⟨hmw1, hmb1, hmw2, hmb2⟩ := mem_variantsOf_wild s1 R hs1
  rcases hs2 with h2 | h2
  · have hlow : lowerStr (s2 ++ str "://") = lowerStr (str "http" ++ str "://") := by
      rw [lowerStr_append, h2]
      decide
    exact ⟨schemeAccepts_of_mem hmb1
        (variantAccepts_prepend (by decide) (by decide) (by decide) hlow htail),
      schemeAccepts_of_mem hmw1
        (variantAccepts_prepend_wild (by decide) (by decide) (by decide) hlow hsub htail)⟩
  · have hlow : lowerStr (s2 ++ str "://") = lowerStr (str "https" ++ str "://") := by
      rw [lowerStr_append, h2]
      decide
    exact ⟨schemeAccepts_of_mem hmb2
        (variantAccepts_prepend (by decide) (by decide) (by decide) hlow htail),
      schemeAccepts_of_mem hmw2
        (variantAccepts_prepend_wild (by decide) (by decide) (by decide) hlow hsub htail)⟩

/-- Witness for C1 at a concrete wildcard pattern and URLs: the pattern
`https://*.youtube.com/watch*` accepts `HTTP://YouTube.com/watch?v=1`
(bare host, flipped scheme, mixed case) and
`HTTP://www.YouTube.com/watch?v=1` (subdomain form). -/
theorem c1_wildcard_subdomain_accepts_witness :
    schemeAccepts (str "https" ++ str "://*." ++ str "youtube.com/watch*")
        (str "HTTP" ++ str "://" ++ str "YouTube.com/watch?v=1") = true ∧
    schemeAccepts (str "https" ++ str "://*." ++ str "youtube.com/watch*")
        (str "HTTP" ++ str "://" ++ (str "www" ++ '.' :: str "YouTube.com/watch?v=1")) = true :=
  c1_wildcard_subdomain_accepts (str "https") (str "HTTP") (str "youtube.com/watch*")
    (str "www") (str "YouTube.com/watch?v=1") (Or.inr rfl) (Or.inl (by decide)) (by decide)
    (by decide)

/-- C3: `get_oembed_endpoint` scans the registered entries in
registration order and returns the endpoint URL of the first entry whose
compiled pattern matches the URL — regardless of whether later entries
(possibly more specific) also match — and returns `none` when no entry
matches. -/
theorem c3_first_registered_provider_wins :
    (∀ (pre : List CompiledEntry) (e : CompiledEntry) (post : List CompiledEntry) (url : Str),
      (∀ x ∈ pre, endpointAccepts x.schemes url = false) →
      endpointAccepts e.schemes url = true →
      get_oembed_endpoint (pre ++ e :: post) url = some e.endpointUrl) ∧
    (∀ (entries : List CompiledEntry) (url : Str),
      (∀ x ∈ entries, endpointAccepts x.schemes url = false) →
      get_oembed_endpoint entries url = none) := by
  constructor
  · intro pre
    induction pre with
    | nil =>
      intro e post url _ he
      rw [List.nil_append, get_oembed_endpoint, if_pos he]
    | cons x pre ih =>
      intro e post url hpre he
      rw [List.cons_append, get_oembed_endpoint,
        if_neg (by rw [hpre x (List.mem_cons_self _ _)]; exact Bool.false_ne_true)]
      exact ih e post url (fun y hy => hpre y (List.mem_cons_of_mem _ hy)) he
  · intro entries
    induction entries with
    | nil => intro url _; rfl
    | cons x rest ih =>
      intro url hall
      rw [get_oembed_endpoint,
        if_neg (by rw [hall x (List.mem_cons_self _ _)]; exact Bool.false_ne_true)]
      exact ih url fun y hy => hall y (List.mem_cons_of_mem _ hy)

/-- Witness for C3: two registered entries match
`https://a.com/x` — the first (broad wildcard `https://a.com/*`) and a
later, more specific one (`https://a.com/x` exactly) — and the endpoint
of the first registered entry is returned. -/
theorem c3_first_registered_provider_wins_witness :
    get_oembed_endpoint
        ([⟨[str "https://z.example/*"], str "E0"⟩] ++
          ⟨[str "https://a.com/*"], str "E1"⟩ ::
            [⟨[str "https://a.com/x"], str "E2"⟩]) (str "https://a.com/x") =
      some (str "E1") :=
  c3_first_registered_provider_wins.1 [⟨[str "https://z.example/*"], str "E0"⟩]
    ⟨[str "https://a.com/*"], str "E1"⟩ [⟨[str "https://a.com/x"], str "E2"⟩]
    (str "https://a.com/x") (by decide) (by decide)

/-- C5: whenever every request the session could answer fails — a raised
network exception, a non-2xx response, or a body that fails JSON
decoding — `get_oembed_data` returns `None`; in the model the function is
total, so no exception propagates. -/
theorem c5_fetch_failure_yields_none (endpointMap : List CompiledEntry) (url : Str)
    (maxwidth maxheight : Int) (session : OEmbedRequest → FetchResult)
    (h : ∀ req, isFetchFailure (session req)) :
    get_oembed_data endpointMap url maxwidth maxheight session = none := by
  rw [get_oembed_data]
  cases hend : get_oembed_endpoint endpointMap url with
  | none => rfl
  | some ep =>
    show oembedHandle (session ⟨ep, oembedParams url maxwidth maxheight⟩) = none
    have hf := h ⟨ep, oembedParams url maxwidth maxheight⟩
    cases hres : session ⟨ep, oembedParams url maxwidth maxheight⟩ with
    | networkError => rfl
    | response ok body =>
      rw [hres] at hf
      simp only [isFetchFailure] at hf
      rcases hf with hok | hbody
      · rw [hok]
        rfl
      · rw [hbody]
        cases ok <;> rfl

/-- Witness for C5: a session that always raises a network error makes
`get_oembed_data` return `None` even though the URL has a registered
provider endpoint. -/
theorem c5_fetch_failure_yields_none_witness :
    get_oembed_data [⟨[str "https://a.com/*"], str "E"⟩] (str "https://a.com/x") 640 480
      (fun _ => FetchResult.networkError) = none :=
  c5_fetch_failure_yields_none [⟨[str "https://a.com/*"], str "E"⟩] (str "https://a.com/x")
    640 480 (fun _ => FetchResult.networkError) (fun _ => trivial)

/-- C4: the response interpretation returns `None` for any resource type
other than `"photo"`/`"video"` (a missing type reads as `""`), for a
photo without a truthy image URL, and for a video missing the embeddable
markup or the thumbnail; every non-`None` result is a photo record with a
non-empty image, or a video record with a non-empty image and embedded
markup. -/
theorem c4_parse_oembed_whitelist :
    (∀ r : OEmbedResponse, r.type.getD [] ≠ str "photo" → r.type.getD [] ≠ str "video" →
      parse_oembed r = none) ∧
    (∀ r : OEmbedResponse, r.type.getD [] = str "photo" →
      truthy (r.url.or r.image) = false → parse_oembed r = none) ∧
    (∀ r : OEmbedResponse, r.type.getD [] = str "video" →
      r.html.getD [] = [] ∨ truthy r.thumbnail_url = false → parse_oembed r = none) ∧
    (∀ (r : OEmbedResponse) (d : UrlOEmbedData), parse_oembed r = some d →
      (d.type = str "photo" ∧ d.image ≠ [] ∧ d.html = none) ∨
      (d.type = str "video" ∧ d.image ≠ [] ∧ ∃ htm, d.html = some htm)) := by
  refine ⟨?_, ?_, ?_, ?_⟩
  · intro r h1 h2
    have e1 : (r.type.getD [] == str "photo") = false := beq_eq_false_iff_ne.mpr h1
    have e2 : (r.type.getD [] == str "video") = false := beq_eq_false_iff_ne.mpr h2
    simp [parse_oembed, e1, e2]
  · intro r h1 h2
    have e2 : (r.type.getD [] == str "video") = false := by
      refine beq_eq_false_iff_ne.mpr ?_
      rw [h1]
      decide
    simp [parse_oembed, h2, e2]
  · intro r h1 h2
    have e1 : (r.type.getD [] == str "photo") = false := by
      refine beq_eq_false_iff_ne.mpr ?_
      rw [h1]
      decide
    rcases h2 with h2 | h2 <;> simp [parse_oembed, e1, h2]
  · intro r d h
    rw [parse_oembed] at h
    split at h
    · rename_i hcond
      simp only [Bool.and_eq_true] at hcond
      obtain rfl := Option.some.inj h
      refine Or.inl ⟨rfl, ?_, rfl⟩
      cases himg : (r.url.or r.image) with
      | none =>
        rw [himg] at hcond
        have h2 := hcond.2
        simp [truthy] at h2
      | some s =>
        rw [himg] at hcond
        have hs : s ≠ [] := by
          have h2 := hcond.2
          simp [truthy] at h2
          exact h2
        simpa [himg] using hs
    · split at h
      · rename_i hcond
        simp only [Bool.and_eq_true] at hcond
        obtain rfl := Option.some.inj h
        refine Or.inr ⟨rfl, ?_, _, rfl⟩
        cases hth : r.thumbnail_url with
        | none =>
          rw [hth] at hcond
          have h2 := hcond.2
          simp [truthy] at h2
        | some s =>
          rw [hth] at hcond
          have hs : s ≠ [] := by
            have h2 := hcond.2
            simp [truthy] at h2
            exact h2
          simpa [hth] using hs
      · exact absurd h (by simp)

/-- Witness for C4: a response of unsupported type `"rich"` with every
other field present yields `None`. -/
theorem c4_parse_oembed_whitelist_witness :
    parse_oembed ⟨some (str "rich"), some (str "http://a/i.png"), some (str "http://a/i.png"),
      some (str "http://a/t.png"), some (str "<p>x</p>"), none, none⟩ = none :=
  c4_parse_oembed_whitelist.1
    ⟨some (str "rich"), some (str "http://a/i.png"), some (str "http://a/i.png"),
      some (str "http://a/t.png"), some (str "<p>x</p>"), none, none⟩
    (by decide) (by decide)

/-- C10: a `"url"` key that is present but empty makes the photo branch
fail even when a non-empty `"image"` key is present — `dict.get`
consults `"image"` only when `"url"` is entirely absent, in which case
the photo record is built from the `"image"` value. -/
theorem c10_url_key_shadows_image :
    (∀ r : OEmbedResponse, r.type = some (str "photo") → r.url = some [] →
      parse_oembed r = none) ∧
    (∀ (r : OEmbedResponse) (s : Str), r.url = none → r.image = some s → s ≠ [] →
      r.type = some (str "photo") →
      parse_oembed r = some ⟨s, str "photo", none, r.title, r.description⟩) := by
  constructor
  · intro r htype hurl
    have hne : (str "photo" == str "video") = false := by decide
    simp [parse_oembed, htype, hurl, Option.or, truthy, hne]
  · intro r s hurl himg hs htype
    simp [parse_oembed, htype, hurl, himg, Option.or, truthy, hs]

/-- Witness for C10: type `"photo"`, `url` present but empty, `image`
pointing at a real image URL — the result is still `None`. -/
theorem c10_url_key_shadows_image_witness :
    parse_oembed ⟨some (str "photo"), some [], some (str "http://a/i.png"),
      none, none, none, none⟩ = none :=
  c10_url_key_shadows_image.1
    ⟨some (str "photo"), some [], some (str "http://a/i.png"), none, none, none, none⟩
    rfl rfl

/-- C9: when a provider endpoint is found, the result of
`get_oembed_data` depends only on the answer of the session to the single
request whose target is the endpoint and whose query parameters are
exactly `url`, `format=json`, `maxwidth` and `maxheight` (in dict
order); the defaults of the source serialise as `maxwidth=640`,
`maxheight=480`. -/
theorem c9_request_shape (endpointMap : List CompiledEntry) (url : Str)
    (maxwidth maxheight : Int) (ep : Str)
    (h : get_oembed_endpoint endpointMap url = some ep) :
    (∀ s1 s2 : OEmbedRequest → FetchResult,
      s1 ⟨ep, oembedParams url maxwidth maxheight⟩ =
          s2 ⟨ep, oembedParams url maxwidth maxheight⟩ →
      get_oembed_data endpointMap url maxwidth maxheight s1 =
        get_oembed_data endpointMap url maxwidth maxheight s2) ∧
    oembedParams url maxwidth maxheight =
      [(str "url", url), (str "format", str "json"),
        (str "maxwidth", intToStr maxwidth), (str "maxheight", intToStr maxheight)] ∧
    intToStr 640 = str "640" ∧ intToStr 480 = str "480" := by
  refine ⟨?_, rfl, by decide, by decide⟩
  intro s1 s2 hs
  rw [get_oembed_data, get_oembed_data, h]
  show oembedHandle (s1 ⟨ep, oembedParams url maxwidth maxheight⟩) =
    oembedHandle (s2 ⟨ep, oembedParams url maxwidth maxheight⟩)
  rw [hs]

/-- Witness for C9 at a concrete registry, URL and width parameters. -/
theorem c9_request_shape_witness :
    (∀ s1 s2 : OEmbedRequest → FetchResult,
      s1 ⟨str "E", oembedParams (str "https://a.com/x") 640 480⟩ =
          s2 ⟨str "E", oembedParams (str "https://a.com/x") 640 480⟩ →
      get_oembed_data [⟨[str "https://a.com/*"], str "E"⟩] (str "https://a.com/x") 640 480 s1 =
        get_oembed_data [⟨[str "https://a.com/*"], str "E"⟩] (str "https://a.com/x") 640 480 s2) ∧
    oembedParams (str "https://a.com/x") 640 480 =
      [(str "url", str "https://a.com/x"), (str "format", str "json"),
        (str "maxwidth", intToStr 640), (str "maxheight", intToStr 480)] ∧
    intToStr 640 = str "640" ∧ intToStr 480 = str "480" :=
  c9_request_shape [⟨[str "https://a.com/*"], str "E"⟩] (str "https://a.com/x") 640 480
    (str "E") (by decide)

/-- C6: a string wrapped exactly as `<![CDATA[` … `]]>` comes back with
precisely that wrapper removed — every wrapped string decomposes as
`"<![CDATA[" ++ m ++ "]]>"` and `strip_cdata` returns that `m` — and a
string that is not wrapped that way is returned unchanged. -/
theorem c6_strip_cdata_unwrap (t s : Str) :
    strip_cdata (str "<![CDATA[" ++ s ++ str "]]>") = s ∧
    (((str "<![CDATA[").isPrefixOf t && (str "]]>").isSuffixOf t) = true →
      ∃ m, t = str "<![CDATA[" ++ m ++ str "]]>" ∧ strip_cdata t = m) ∧
    (((str "<![CDATA[").isPrefixOf t && (str "]]>").isSuffixOf t) = false →
      strip_cdata t = t) := by
  refine ⟨?_, ?_, ?_⟩
  · have hc : ((str "<![CDATA[").isPrefixOf (str "<![CDATA[" ++ s ++ str "]]>") &&
        (str "]]>").isSuffixOf (str "<![CDATA[" ++ s ++ str "]]>")) = true := by
      rw [Bool.and_eq_true]
      exact ⟨ List.isPrefixOf_iff_prefix.mpr ⟨s ++ str "]]>", (List.append_assoc _ _ _).symm⟩,
        List.isSuffixOf_iff_suffix.mpr ⟨str "<![CDATA[" ++ s, rfl⟩⟩
    rw [strip_cdata, if_pos hc, List.append_assoc,
      show (9 : ℕ) = (str "<![CDATA[").length from rfl, List.drop_left, List.rdrop,
      show (s ++ str "]]>").length - 3 = s.length by simp [str], List.take_left]
  · intro h
    rw [Bool.and_eq_true] at h
    obtain ⟨rr, hrr⟩ := List.isPrefixOf_iff_prefix.mp h.1
    obtain ⟨p, hp⟩ := List.isSuffixOf_iff_suffix.mp h.2
    by_cases hlen : 9 ≤ p.length
    · have hpfx : (str "<![CDATA[") <+: p := by
        refine List.prefix_of_prefix_length_le ⟨rr, hrr⟩ ⟨str "]]>", hp⟩ ?_
        rw [show (str "<![CDATA[").length = 9 from rfl]
        exact hlen
      obtain ⟨m, hm⟩ := hpfx
      refine ⟨m, by rw [← hp, ← hm, List.append_assoc], ?_⟩
      rw [strip_cdata, if_pos (Bool.and_eq_true .. ▸ h), ← hp, ← hm, List.append_assoc,
        show (9 : ℕ) = (str "<![CDATA[").length from rfl, List.drop_left,
        List.rdrop, show (m ++ str "]]>").length - 3 = m.length by simp [str], List.take_left]
    · exfalso
      have h1 : t[p.length]? = some ']' := by
        rw [← hp, List.getElem?_append_right (le_refl _), Nat.sub_self]
        rfl
      have h2 : t[p.length]? = (str "<![CDATA[")[p.length]? := by
        rw [← hrr, List.getElem?_append_left (by simpa using Nat.lt_of_not_le hlen)]
      rw [h1] at h2
      obtain ⟨hn, hchar⟩ := List.getElem?_eq_some_iff.mp h2.symm
      have : ']' ∈ (str "<![CDATA[") := hchar ▸ List.getElem_mem hn
      exact absurd this (by decide)
  · intro h
    rw [strip_cdata, if_neg (ne_true_of_eq_false h)]

/-- Witness for C6: `"<![CDATA[<iframe></iframe>]]>"` unwraps to
`"<iframe></iframe>"`, and an unwrapped markup string is returned
unchanged. -/
theorem c6_strip_cdata_unwrap_witness :
    strip_cdata (str "<![CDATA[" ++ str "<iframe></iframe>" ++ str "]]>") =
      str "<iframe></iframe>" ∧
    strip_cdata (str "<iframe></iframe>") = str "<iframe></iframe>" :=
  ⟨(c6_strip_cdata_unwrap (str "<iframe></iframe>") (str "<iframe></iframe>")).1,
    (c6_strip_cdata_unwrap (str "<iframe></iframe>") (str "<iframe></iframe>")).2.2 (by decide)⟩

theorem compileEndpoint_none {e : OEmbedEndpoint} (h : e.schemes = [] ∨ e.url = none) :
    compileEndpoint e = none := by
  rcases h with h | h
  · cases hu : e.url with
    | none => simp [compileEndpoint, hu]
    | some u => simp [compileEndpoint, hu, h]
  · simp [compileEndpoint, h]

/-- C7: an endpoint with an empty (or missing, read as empty) scheme
list or a missing URL template compiles to nothing — removing it from a
provider leaves the endpoint map unchanged — and every registered entry
comes from an endpoint with a non-empty scheme list and a non-empty URL
template, its registered URL being the template with every `{format}`
placeholder replaced by `json`. -/
theorem c7_compile_skips_partial_endpoints :
    (∀ e : OEmbedEndpoint, e.schemes = [] ∨ e.url = none → compileEndpoint e = none) ∧
    (∀ (ps1 ps2 : List OEmbedProvider) (es1 es2 : List OEmbedEndpoint) (e : OEmbedEndpoint),
      e.schemes = [] ∨ e.url = none →
      compile_oembed_providers (ps1 ++ ⟨es1 ++ e :: es2⟩ :: ps2) =
        compile_oembed_providers (ps1 ++ ⟨es1 ++ es2⟩ :: ps2)) ∧
    (∀ (provs : List OEmbedProvider) (entry : CompiledEntry),
      entry ∈ compile_oembed_providers provs →
      ∃ p ∈ provs, ∃ e ∈ p.endpoints, e.schemes ≠ [] ∧
        ∃ u, e.url = some u ∧ u ≠ [] ∧ entry = ⟨e.schemes, formatted u⟩) := by
  refine ⟨fun e h => compileEndpoint_none h, ?_, ?_⟩
  · intro ps1 ps2 es1 es2 e he
    simp only [compile_oembed_providers, List.flatMap_append, List.flatMap_cons,
      List.filterMap_append, List.filterMap_cons, compileEndpoint_none he]
  · intro provs entry h
    rw [compile_oembed_providers, List.mem_flatMap] at h
    obtain ⟨p, hp, hmem⟩ := h
    rw [List.mem_filterMap] at hmem
    obtain ⟨e, he, hce⟩ := hmem
    cases hu : e.url with
    | none => rw [compileEndpoint, hu] at hce; exact absurd hce (by simp)
    | some u =>
      simp only [compileEndpoint, hu] at hce
      by_cases hcond : (e.schemes.isEmpty || u.isEmpty) = true
      · rw [if_pos hcond] at hce
        exact absurd hce (by simp)
      · rw [if_neg hcond] at hce
        obtain rfl := Option.some.inj hce
        rw [Bool.or_eq_true] at hcond
        have hc2 := not_or.mp hcond
        refine ⟨p, hp, e, he, ?_, u, hu, ?_, rfl⟩
        · exact fun hs => hc2.1 (by rw [hs]; rfl)
        · exact fun hs => hc2.2 (by rw [hs]; rfl)

/-- Witness for C7: a provider whose first endpoint has an empty scheme
list compiles to the same map as the provider without it, and the
format placeholder of the surviving endpoint is resolved to `json`. -/
theorem c7_compile_skips_partial_endpoints_witness :
    compile_oembed_providers
        ([] ++ ⟨[] ++ (⟨[], some (str "https://bad.example/oembed")⟩ : OEmbedEndpoint) ::
          [⟨[str "https://a.com/*"], some (str "https://a.com/oembed.\x7bformat\x7d")⟩]⟩ :: []) =
      compile_oembed_providers
        ([] ++
          (⟨[] ++ [⟨[str "https://a.com/*"], some (str "https://a.com/oembed.\x7bformat\x7d")⟩]⟩ :
            OEmbedProvider) :: []) ∧
    compile_oembed_providers
        [⟨[⟨[str "https://a.com/*"], some (str "https://a.com/oembed.\x7bformat\x7d")⟩]⟩] =
      [⟨[str "https://a.com/*"], str "https://a.com/oembed.json"⟩] := by
  constructor
  · exact c7_compile_skips_partial_endpoints.2.1 [] [] []
      [⟨[str "https://a.com/*"], some (str "https://a.com/oembed.\x7bformat\x7d")⟩]
      ⟨[], some (str "https://bad.example/oembed")⟩ (Or.inl rfl)
  · simp [compile_oembed_providers, compileEndpoint, formatted, replaceAllSub, str,
      List.isPrefixOf]

theorem schemeFlip_shape {w f : Str} (h : schemeFlip w = some f) :
    (∃ r, w = str "https://" ++ r ∧ f = str "http://" ++ r) ∨
    (∃ r, w = str "http://" ++ r ∧ f = str "https://" ++ r) := by
  rw [schemeFlip] at h
  by_cases h1 : (str "https://").isPrefixOf w = true
  · rw [if_pos h1] at h
    obtain ⟨r, hr⟩ := List.isPrefixOf_iff_prefix.mp h1
    obtain rfl := Option.some.inj h
    refine Or.inl ⟨r, hr.symm, ?_⟩
    rw [← hr, show (8 : ℕ) = (str "https://").length from rfl, List.drop_left]
  · rw [if_neg h1] at h
    by_cases h2 : (str "http://").isPrefixOf w = true
    · rw [if_pos h2] at h
      obtain ⟨r, hr⟩ := List.isPrefixOf_iff_prefix.mp h2
      obtain rfl := Option.some.inj h
      refine Or.inr ⟨r, hr.symm, ?_⟩
      rw [← hr, show (7 : ℕ) = (str "http://").length from rfl, List.drop_left]
    · rw [if_neg h2] at h
      exact absurd h (by simp)

theorem mem_variantsOf_src {v s : Str} (h : v ∈ variantsOf s) :
    v = s ∨
    (containsSub wildcardSub s = true ∧ v = replaceFirst wildcardSub (str "://") s) ∨
    (∃ w, (w = s ∨
        (containsSub wildcardSub s = true ∧ w = replaceFirst wildcardSub (str "://") s)) ∧
      schemeFlip w = some v) := by
  rw [variantsOf] at h
  by_cases hc : containsSub wildcardSub s = true
  · simp only [hc, if_pos] at h
    rw [mem_dedupFirst] at h
    simp only [List.mem_append, List.mem_filterMap, List.mem_cons, List.mem_singleton,
      List.not_mem_nil, or_false] at h
    rcases h with (h | h) | ⟨w, hw, hfw⟩
    · exact Or.inl h
    · exact Or.inr (Or.inl ⟨hc, h⟩)
    · rcases hw with hw | hw
      · exact Or.inr (Or.inr ⟨w, Or.inl hw, hfw⟩)
      · exact Or.inr (Or.inr ⟨w, Or.inr ⟨hc, hw⟩, hfw⟩)
  · simp only [hc, if_neg, Bool.false_eq_true, if_false] at h
    rw [mem_dedupFirst] at h
    simp only [List.append_nil, List.mem_append, List.mem_filterMap, List.mem_singleton] at h
    rcases h with h | ⟨w, hw, hfw⟩
    · exact Or.inl h
    · exact Or.inr (Or.inr ⟨w, Or.inl hw, hfw⟩)

theorem star_mem_of_containsSub {s : Str} (h : containsSub wildcardSub s = true) : '*' ∈ s := by
  obtain ⟨pre, post, _, hs⟩ := containsSub_split h
  rw [hs]
  refine List.mem_append.mpr (Or.inl (List.mem_append.mpr (Or.inr ?_)))
  decide

theorem mem_variantsOf_nostar {v s : Str} (hs : '*' ∉ s) (h : v ∈ variantsOf s) :
    v = s ∨ schemeFlip s = some v := by
  rcases mem_variantsOf_src h with h | ⟨hc, _⟩ | ⟨w, hw, hfw⟩
  · exact Or.inl h
  · exact absurd (star_mem_of_containsSub hc) hs
  · rcases hw with rfl | ⟨hc, _⟩
    · exact Or.inr hfw
    · exact absurd (star_mem_of_containsSub hc) hs

theorem nostar_flip {s f : Str} (hs : '*' ∉ s) (h : schemeFlip s = some f) : '*' ∉ f := by
  intro hf
  rcases schemeFlip_shape h with ⟨r, hw, rfl⟩ | ⟨r, hw, rfl⟩ <;>
    rcases List.mem_append.mp hf with hf | hf
  · exact absurd hf (by decide)
  · exact hs (hw ▸ List.mem_append.mpr (Or.inr hf))
  · exact absurd hf (by decide)
  · exact hs (hw ▸ List.mem_append.mpr (Or.inr hf))

theorem endsWithStar_false_of_nostar {v : Str} (hv : '*' ∉ v) : endsWithStar v = false := by
  rw [endsWithStar]
  cases hl : v.getLast? with
  | none => rfl
  | some c =>
    obtain ⟨l', rfl⟩ := List.getLast?_eq_some_iff.mp hl
    have hc : c ≠ '*' := fun hcs => hv (hcs ▸ List.mem_append.mpr (Or.inr (by simp)))
    simpa using hc

theorem variantAccepts_nostar {v u : Str} (hv : '*' ∉ v) :
    variantAccepts v u = true ↔
      (lowerStr u = lowerStr v ∨
        (u.getLast? = some '\n' ∧ lowerStr u.dropLast = lowerStr v)) := by
  rw [variantAccepts, endsWithStar_false_of_nostar hv]
  show mDollar (toksOf v) u = true ↔ _
  rw [mDollar, toksOf_eq_lits hv, Bool.or_eq_true, Bool.and_eq_true, mFull_lits, mFull_lits,
    beq_iff_eq]

theorem lowerStr_length (s : Str) : (lowerStr s).length = s.length := List.length_map s _

theorem http_https_clash (u A B C : Str) (h1 : lowerStr u = str "http://" ++ A)
    (h2 : lowerStr u ++ B = str "https://" ++ C) : False := by
  have hlen : 5 ≤ (lowerStr u).length := by
    rw [h1, List.length_append]
    have h7 : (str "http://").length = 7 := rfl
    omega
  have t1 : (lowerStr u).take 5 = str "http:" := by
    rw [h1, List.take_append_of_le_length (by simp [str])]
    rfl
  have t2 : (lowerStr u).take 5 = str "https" := by
    have h3 := congrArg (List.take 5) h2
    rw [List.take_append_of_le_length hlen,
      List.take_append_of_le_length (by simp [str])] at h3
    rw [h3]
    rfl
  rw [t1] at t2
  exact absurd t2 (by decide)

theorem accept_normalize {v u : Str} (hv : '*' ∉ v) (h : variantAccepts v u = true) :
    ∃ u1 δ1, (δ1 = ([] : Str) ∨ δ1 = ['\n']) ∧ u1 ++ δ1 = u ∧ lowerStr u1 = lowerStr v := by
  rcases (variantAccepts_nostar hv).mp h with h | ⟨hl, hd⟩
  · exact ⟨u, [], Or.inl rfl, List.append_nil u, h⟩
  · obtain ⟨l', rfl⟩ := List.getLast?_eq_some_iff.mp hl
    rw [List.dropLast_concat] at hd
    exact ⟨l', ['\n'], Or.inr rfl, rfl, hd⟩

theorem same_variant_extension {v u1 u2 δ1 δ2 u ext : Str}
    (hδ1 : δ1 = ([] : Str) ∨ δ1 = ['\n']) (hδ2 : δ2 = ([] : Str) ∨ δ2 = ['\n'])
    (hu : u1 ++ δ1 = u) (hu2 : u2 ++ δ2 = u ++ ext)
    (hl1 : lowerStr u1 = lowerStr v) (hl2 : lowerStr u2 = lowerStr v) :
    ext = [] ∨ ext = ['\n'] := by
  have len1 : u1.length = v.length := by
    rw [← lowerStr_length u1, ← lowerStr_length v, hl1]
  have len2 : u2.length = v.length := by
    rw [← lowerStr_length u2, ← lowerStr_length v, hl2]
  have lenu : u1.length + δ1.length = u.length := by rw [← hu, List.length_append]
  have lenu2 : u2.length + δ2.length = u.length + ext.length := by
    have h3 := congrArg List.length hu2
    rwa [List.length_append, List.length_append] at h3
  have hd1 : δ1.length ≤ 1 := by rcases hδ1 with rfl | rfl <;> simp
  have hd2 : δ2.length ≤ 1 := by rcases hδ2 with rfl | rfl <;> simp
  have hext1 : ext.length ≤ 1 := by omega
  by_cases hext : ext.length = 0
  · exact Or.inl (List.length_eq_zero.mp hext)
  · have hext2 : ext.length = 1 := by omega
    obtain ⟨c, rfl⟩ := List.length_eq_one.mp hext2
    have hd2e : δ2.length = 1 := by omega
    have hδ2n : δ2 = ['\n'] := by
      rcases hδ2 with rfl | rfl
      · simp at hd2e
      · rfl
    subst hδ2n
    have hlast := congrArg List.getLast? hu2
    rw [List.getLast?_concat, show u ++ [c] = u ++ [c] from rfl, List.getLast?_concat] at hlast
    obtain rfl := Option.some.inj hlast
    exact Or.inr rfl

theorem cross_variant_extension (r : Str) {u1 u2 δ1 δ2 u ext : Str}
    (hδ1 : δ1 = ([] : Str) ∨ δ1 = ['\n']) (hδ2 : δ2 = ([] : Str) ∨ δ2 = ['\n'])
    (hu : u1 ++ δ1 = u) (hu2 : u2 ++ δ2 = u ++ ext)
    (hl1 : lowerStr u1 = str "http://" ++ lowerStr r)
    (hl2 : lowerStr u2 = str "https://" ++ lowerStr r) : ext = [] := by
  by_cases hext : ext = []
  · exact hext
  · exfalso
    have len1 : u1.length = 7 + r.length := by
      have h3 := congrArg List.length hl1
      rw [lowerStr_length, List.length_append, lowerStr_length] at h3
      simpa [str] using h3
    have len2 : u2.length = 8 + r.length := by
      have h3 := congrArg List.length hl2
      rw [lowerStr_length, List.length_append, lowerStr_length] at h3
      simpa [str] using h3
    have lenu : u1.length + δ1.length = u.length := by rw [← hu, List.length_append]
    have lenu2 : u2.length + δ2.length = u.length + ext.length := by
      have h3 := congrArg List.length hu2
      rwa [List.length_append, List.length_append] at h3
    have hd1 : δ1.length ≤ 1 := by rcases hδ1 with rfl | rfl <;> simp
    have hd2 : δ2.length ≤ 1 := by rcases hδ2 with rfl | rfl <;> simp
    have hextpos : 0 < ext.length := List.length_pos.mpr hext
    have hle : u.length ≤ u2.length := by omega
    have htake : u2.take u.length = u := by
      have h3 := congrArg (List.take u.length) hu2
      rw [List.take_append_of_le_length hle, List.take_append_of_le_length (le_refl _),
        List.take_length u] at h3
      exact h3
    have hu2eq : u2 = u ++ u2.drop u.length := by
      conv_lhs => rw [← List.take_append_drop u.length u2, htake]
    have hlu : lowerStr u = str "http://" ++ (lowerStr r ++ lowerStr δ1) := by
      rw [← hu, lowerStr_append, hl1, List.append_assoc]
    have hlu2 : lowerStr u ++ lowerStr (u2.drop u.length) = str "https://" ++ lowerStr r := by
      rw [← lowerStr_append, ← hu2eq, hl2]
    exact http_https_clash u _ _ _ hlu hlu2

theorem endsWithStar_dewild {s : Str} (hs : endsWithStar s = true)
    (hc : containsSub wildcardSub s = true) :
    endsWithStar (replaceFirst wildcardSub (str "://") s) = true := by
  obtain ⟨pre, post, hsp, hseq⟩ := containsSub_split hc
  have hpost : post ≠ [] := by
    intro hp
    rw [hseq, hp, List.append_nil, endsWithStar,
      List.getLast?_append_of_ne_nil _ (by decide : wildcardSub ≠ [])] at hs
    exact absurd hs (by decide)
  rw [replaceFirst, hsp, endsWithStar, List.getLast?_append_of_ne_nil _ hpost]
  rw [hseq, endsWithStar, List.getLast?_append_of_ne_nil _ hpost] at hs
  exact hs

theorem endsWithStar_flip {w f : Str} (hw : endsWithStar w = true) (hf : schemeFlip w = some f) :
    endsWithStar f = true := by
  rcases schemeFlip_shape hf with ⟨r, rfl, rfl⟩ | ⟨r, rfl, rfl⟩ <;>
  · have hr : r ≠ [] := by
      intro h0
      rw [h0, List.append_nil] at hw
      exact absurd hw (by decide)
    rw [endsWithStar, List.getLast?_append_of_ne_nil _ hr]
    rw [endsWithStar, List.getLast?_append_of_ne_nil _ hr] at hw
    exact hw

theorem endsWithStar_variant {v s : Str} (hs : endsWithStar s = true) (hv : v ∈ variantsOf s) :
    endsWithStar v = true := by
  rcases mem_variantsOf_src hv with rfl | ⟨hc, rfl⟩ | ⟨w, hw, hfw⟩
  · exact hs
  · exact endsWithStar_dewild hs hc
  · have hwstar : endsWithStar w = true := by
      rcases hw with rfl | ⟨hc, rfl⟩
      · exact hs
      · exact endsWithStar_dewild hs hc
    exact endsWithStar_flip hwstar hfw

theorem starEnding_open {s u ext : Str} (hs : endsWithStar s = true)
    (h : schemeAccepts s u = true) : schemeAccepts s (u ++ ext) = true := by
  obtain ⟨v, hv, ha⟩ := List.any_eq_true.mp h
  have hvs := endsWithStar_variant hs hv
  rw [variantAccepts, hvs, if_pos rfl] at ha
  refine List.any_eq_true.mpr ⟨v, hv, ?_⟩
  rw [variantAccepts, hvs, if_pos rfl]
  exact mPre_extend _ u ext ha

/-- C2 counterexample: the claim as stated is false on the code.  The
pattern `https://a.com/x` does not end in `*`, the matcher accepts the
URL `https://a.com/x`, yet it also accepts that URL extended with a
trailing newline (Python `$` matches just before a newline that ends the
string).  Likewise the pattern `https://a.com/*/e` does not end in `*`,
yet the accepted URL `https://a.com/1/e` can be extended with `/2/e`
and is still accepted, the interior `*` absorbing the extension. -/
theorem c2_anchoring_counterexample :
    endsWithStar (str "https://a.com/x") = false ∧
    schemeAccepts (str "https://a.com/x") (str "https://a.com/x") = true ∧
    schemeAccepts (str "https://a.com/x") (str "https://a.com/x" ++ ['\n']) = true ∧
    endsWithStar (str "https://a.com/*/e") = false ∧
    schemeAccepts (str "https://a.com/*/e") (str "https://a.com/1/e") = true ∧
    schemeAccepts (str "https://a.com/*/e") (str "https://a.com/1/e" ++ str "/2/e") = true := by
  decide

/-- C2 (amended): for every pattern ending in `*` the tail is open — any
trailing characters are accepted; for every pattern containing no `*` at
all, the match is anchored at the end up to the Python `$` semantics: if an
accepted URL extended by `ext` is still accepted, then `ext` is empty or
the single newline `"\n"`. -/
theorem c2_anchoring_amended :
    (∀ s u ext : Str, endsWithStar s = true → schemeAccepts s u = true →
      schemeAccepts s (u ++ ext) = true) ∧
    (∀ s u ext : Str, '*' ∉ s → schemeAccepts s u = true →
      schemeAccepts s (u ++ ext) = true → ext = [] ∨ ext = ['\n']) := by
  constructor
  · exact fun s u ext hs h => starEnding_open hs h
  · intro s u ext hs h1 h2
    obtain ⟨v1, hv1, ha1⟩ := List.any_eq_true.mp h1
    obtain ⟨v2, hv2, ha2⟩ := List.any_eq_true.mp h2
    have hm1 := mem_variantsOf_nostar hs hv1
    have hm2 := mem_variantsOf_nostar hs hv2
    have hns1 : '*' ∉ v1 := by
      rcases hm1 with rfl | hf
      exacts [hs, nostar_flip hs hf]
    have hns2 : '*' ∉ v2 := by
      rcases hm2 with rfl | hf
      exacts [hs, nostar_flip hs hf]
    obtain ⟨u1, δ1, hδ1, hu1, hl1⟩ := accept_normalize hns1 ha1
    obtain ⟨u2, δ2, hδ2, hu2, hl2⟩ := accept_normalize hns2 ha2
    have hd1 : δ1.length ≤ 1 := by rcases hδ1 with rfl | rfl <;> simp
    have hd2 : δ2.length ≤ 1 := by rcases hδ2 with rfl | rfl <;> simp
    have lenu : u1.length + δ1.length = u.length := by rw [← hu1, List.length_append]
    have lenu2 : u2.length + δ2.length = u.length + ext.length := by
      have h3 := congrArg List.length hu2
      rwa [List.length_append, List.length_append] at h3
    rcases hm1 with rfl | hf1
    · rcases hm2 with rfl | hf2
      · exact same_variant_extension hδ1 hδ2 hu1 hu2 hl1 hl2
      · rcases schemeFlip_shape hf2 with ⟨r, hseq, rfl⟩ | ⟨r, hseq, rfl⟩
        · refine Or.inl (List.length_eq_zero.mp ?_)
          have len1 : u1.length = 8 + r.length := by
            have h3 := congrArg List.length hl1
            rw [lowerStr_length, lowerStr_length, hseq, List.length_append] at h3
            simpa [str] using h3
          have len2 : u2.length = 7 + r.length := by
            have h3 := congrArg List.length hl2
            rw [lowerStr_length, lowerStr_length, List.length_append] at h3
            simpa [str] using h3
          omega
        · refine Or.inl (cross_variant_extension r hδ1 hδ2 hu1 hu2 ?_ ?_)
          · rw [hl1, hseq, lowerStr_append,
              show lowerStr (str "http://") = str "http://" from by decide]
          · rw [hl2, lowerStr_append,
              show lowerStr (str "https://") = str "https://" from by decide]
    · rcases hm2 with rfl | hf2
      · rcases schemeFlip_shape hf1 with ⟨r, hseq, rfl⟩ | ⟨r, hseq, rfl⟩
        · refine Or.inl (cross_variant_extension r hδ1 hδ2 hu1 hu2 ?_ ?_)
          · rw [hl1, lowerStr_append,
              show lowerStr (str "http://") = str "http://" from by decide]
          · rw [hl2, hseq, lowerStr_append,
              show lowerStr (str "https://") = str "https://" from by decide]
        · refine Or.inl (List.length_eq_zero.mp ?_)
          have len1 : u1.length = 8 + r.length := by
            have h3 := congrArg List.length hl1
            rw [lowerStr_length, lowerStr_length, List.length_append] at h3
            simpa [str] using h3
          have len2 : u2.length = 7 + r.length := by
            have h3 := congrArg List.length hl2
            rw [lowerStr_length, lowerStr_length, hseq, List.length_append] at h3
            simpa [str] using h3
          omega
      · obtain rfl : v1 = v2 := Option.some.inj (hf1.symm.trans hf2)
        exact same_variant_extension hδ1 hδ2 hu1 hu2 hl1 hl2

/-- Witness for the amended C2: the `*`-ending pattern
`https://a.com/*` accepts `https://a.com/x` and still accepts it with
`yz` appended, and the star-free pattern `https://a.com/x` accepting
both a URL and its extension forces the extension to be empty or a lone
newline. -/
theorem c2_anchoring_amended_witness :
    schemeAccepts (str "https://a.com/*") (str "https://a.com/x" ++ str "yz") = true ∧
    (([] : Str) = [] ∨ ([] : Str) = ['\n']) :=
  ⟨c2_anchoring_amended.1 (str "https://a.com/*") (str "https://a.com/x") (str "yz")
      (by decide) (by decide),
    c2_anchoring_amended.2 (str "https://a.com/x") (str "https://a.com/x") []
      (by decide) (by decide) (by decide)⟩

theorem flatMap_escChar_head_ne_star (v : Str) :
    ∀ x, (v.flatMap escChar).head? = some x → x ≠ '*' := by
  cases v with
  | nil => intro x hx; simp at hx
  | cons c v =>
    intro x hx
    rw [List.flatMap_cons] at hx
    by_cases hsp : isSpecialChar c = true
    · rw [escChar, if_pos hsp, List.cons_append] at hx
      obtain rfl := Option.some.inj hx
      decide
    · rw [escChar, if_neg hsp, List.cons_append, List.nil_append] at hx
      obtain rfl := Option.some.inj hx
      intro hc
      rw [hc] at hsp
      exact hsp (by decide)

theorem replace2_star_block (c : Char) (rest : Str)
    (hrest : ∀ x, rest.head? = some x → x ≠ '*') :
    replace2 '\\' '*' ['.', '*'] (escChar c ++ rest) =
      step1 c ++ replace2 '\\' '*' ['.', '*'] rest := by
  by_cases hc1 : c = '*'
  · subst hc1
    rw [show escChar '*' = ['\\', '*'] from rfl, show step1 '*' = ['.', '*'] from rfl,
      List.cons_append, List.cons_append, List.nil_append, replace2, if_pos ⟨rfl, rfl⟩]
  · by_cases hc2 : c = '\\'
    · subst hc2
      rw [show escChar '\\' = ['\\', '\\'] from rfl, show step1 '\\' = ['\\', '\\'] from rfl,
        List.cons_append, List.cons_append, List.nil_append, replace2, if_neg (by simp)]
      cases rest with
      | nil => simp [replace2]
      | cons r0 r1 =>
        have hr0 : r0 ≠ '*' := hrest r0 rfl
        rw [replace2, if_neg (by simp [hr0])]
        rfl
    · by_cases hsp : isSpecialChar c = true
      · rw [show escChar c = ['\\', c] from by rw [escChar, if_pos hsp],
          show step1 c = ['\\', c] from by rw [step1, if_neg hc1, escChar, if_pos hsp],
          List.cons_append, List.cons_append, List.nil_append, replace2,
          if_neg (by simp [hc1])]
        cases rest with
        | nil => simp [replace2]
        | cons r0 r1 =>
          rw [replace2, if_neg (by simp [hc2])]
          rfl
      · have hec : escChar c = [c] := by rw [escChar, if_neg hsp]
        rw [hec, show step1 c = escChar c from by rw [step1, if_neg hc1], hec,
          List.cons_append, List.nil_append]
        cases rest with
        | nil => simp [replace2]
        | cons r0 r1 =>
          rw [replace2, if_neg (by simp [hc2])]
          rfl

theorem replace2_star_flatMap (v : Str) :
    replace2 '\\' '*' ['.', '*'] (v.flatMap escChar) = v.flatMap step1 := by
  induction v with
  | nil => simp [replace2]
  | cons c v ih =>
    rw [List.flatMap_cons, replace2_star_block c _ (flatMap_escChar_head_ne_star v), ih,
      List.flatMap_cons]

theorem flatMap_step1_head_ne_amp (v : Str) :
    ∀ x, (v.flatMap step1).head? = some x → x ≠ '&' := by
  cases v with
  | nil => intro x hx; simp at hx
  | cons c v =>
    intro x hx
    rw [List.flatMap_cons] at hx
    by_cases hc1 : c = '*'
    · subst hc1
      rw [show step1 '*' = ['.', '*'] from rfl, List.cons_append] at hx
      obtain rfl := Option.some.inj hx
      decide
    · rw [step1, if_neg hc1] at hx
      by_cases hsp : isSpecialChar c = true
      · rw [escChar, if_pos hsp, List.cons_append] at hx
        obtain rfl := Option.some.inj hx
        decide
      · rw [escChar, if_neg hsp, List.cons_append, List.nil_append] at hx
        obtain rfl := Option.some.inj hx
        intro hc
        rw [hc] at hsp
        exact hsp (by decide)

theorem replace2_amp_block (c : Char) (rest : Str)
    (hrest : ∀ x, rest.head? = some x → x ≠ '&') :
    replace2 '\\' '&' ['&'] (step1 c ++ rest) =
      translateChar c ++ replace2 '\\' '&' ['&'] rest := by
  by_cases hc1 : c = '*'
  · subst hc1
    rw [show step1 '*' = ['.', '*'] from rfl, show translateChar '*' = ['.', '*'] from rfl,
      List.cons_append, List.cons_append, List.nil_append, replace2, if_neg (by simp)]
    cases rest with
    | nil => simp [replace2]
    | cons r0 r1 =>
      rw [replace2, if_neg (by simp)]
      rfl
  · by_cases hamp : c = '&'
    · subst hamp
      rw [show step1 '&' = ['\\', '&'] from rfl, show translateChar '&' = ['&'] from rfl,
        List.cons_append, List.cons_append, List.nil_append, replace2, if_pos ⟨rfl, rfl⟩]
    · by_cases hc2 : c = '\\'
      · subst hc2
        rw [show step1 '\\' = ['\\', '\\'] from rfl,
          show translateChar '\\' = ['\\', '\\'] from rfl,
          List.cons_append, List.cons_append, List.nil_append, replace2, if_neg (by simp)]
        cases rest with
        | nil => simp [replace2]
        | cons r0 r1 =>
          have hr0 : r0 ≠ '&' := hrest r0 rfl
          rw [replace2, if_neg (by simp [hr0])]
          rfl
      · by_cases hsp : isSpecialChar c = true
        · rw [show step1 c = ['\\', c] from by rw [step1, if_neg hc1, escChar, if_pos hsp],
            show translateChar c = ['\\', c] from by
              rw [translateChar, if_neg hc1, if_neg hamp, if_pos hsp],
            List.cons_append, List.cons_append, List.nil_append, replace2,
            if_neg (by simp [hamp])]
          cases rest with
          | nil => simp [replace2]
          | cons r0 r1 =>
            rw [replace2, if_neg (by simp [hc2])]
            rfl
        · rw [show step1 c = [c] from by rw [step1, if_neg hc1, escChar, if_neg hsp],
            show translateChar c = [c] from by
              rw [translateChar, if_neg hc1, if_neg hamp, if_neg hsp],
            List.cons_append, List.nil_append]
          cases rest with
          | nil => simp [replace2]
          | cons r0 r1 =>
            rw [replace2, if_neg (by simp [hc2])]
            rfl

theorem replace2_amp_flatMap (v : Str) :
    replace2 '\\' '&' ['&'] (v.flatMap step1) = v.flatMap translateChar := by
  induction v with
  | nil => simp [replace2]
  | cons c v ih =>
    rw [List.flatMap_cons, replace2_amp_block c _ (flatMap_step1_head_ne_amp v), ih,
      List.flatMap_cons]

theorem escapeVariant_eq (v : Str) : escapeVariant v = v.flatMap translateChar := by
  rw [escapeVariant, reEscape, replace2_star_flatMap, replace2_amp_flatMap]

/-- C8: in the regex string built by `scheme_to_regex`, every variant is
translated character by character: `*` becomes the greedy `.*` wildcard,
a literal `&` stays an unescaped `&` (its `re.escape` backslash is
removed again), every other character of the `re.escape` special set keeps
its escaping backslash so it matches only itself, and the remaining
characters stand for themselves. -/
theorem c8_escape_translation (scheme : Str) :
    scheme_to_regex scheme =
      str "(?:" ++
        List.intercalate (str "|")
          ((variantsOf scheme).map fun v =>
            v.flatMap translateChar ++ (if endsWithStar v then [] else ['$'])) ++
      str ")" := by
  rw [scheme_to_regex]
  simp only [escapeVariant_eq]
